import Mathlib

/-! Shallow embedding of the multi-mono-font text rendering library:
glyph mappings (`mapping.rs`), font descriptors and glyph lookup (`lib.rs`),
the multi-font text style with measurement and drawing
(`multi_mono_text_style.rs`), the binary-to-color draw-target adapter
(`draw_target.rs`), and the static text layout (`static_text.rs`),
together with theorems checking the specification's claims.

Modelling conventions:
* Rust machine integers are modelled as `Nat` (unsigned) and `Int` (signed);
  `Nat` subtraction coincides with the `saturating_sub` used by the source,
  and Rust's truncating `i32` division is modelled by `Int.tdiv`.
* Rust `char` values are modelled as `Nat` code points. Where Rust iterates
  a `char` range (skipping the surrogate gap), the model filters the raw
  code-point range by Unicode scalar validity.
* A draw target is modelled as a log of emitted drawing operations; every
  operation of the underlying surface succeeds, which corresponds to the
  "successful draw" premise of the claims. A Rust `unreachable!()` panic is
  modelled as `Option.none`.
-/

/-- Unicode scalar value test, matching the values Rust's `char` can hold
(code points below the surrogate range, or above it and below 0x110000). -/
def isScalarB (n : Nat) : Bool :=
  decide (n < 0xd800) || (decide (0xdfff < n) && decide (n < 0x110000))

/-- All Unicode scalar values from `s` to `e` inclusive, in code-point order.
This models Rust's iteration of `start..=end` over `char`, which skips the
surrogate gap. Empty when `e < s`. -/
def charRange (s e : Nat) : List Nat :=
  (List.range' s (e + 1 - s)).filter isScalarB

/-- Characters enumerated by a glyph-mapping data string, in index order.
Faithful to `StrGlyphMapping::chars` in `mapping.rs`: a NUL byte starts an
inclusive-range escape consuming the next two characters; a truncated escape
(`chars.next()?` returning `None`) ends the enumeration. -/
def mappingChars : List Nat → List Nat
  | [] => []
  | c :: rest =>
    if c = 0 then
      match rest with
      | s :: e :: rest2 => charRange s e ++ mappingChars rest2
      | _ => []
    else
      c :: mappingChars rest

/-- Position of the first element equal to `c`, offset by `n`. This models
the `chars().enumerate().find(|(_, v)| c == *v)` search in
`StrGlyphMapping::index`. -/
def findIndex (c : Nat) : List Nat → Nat → Option Nat
  | [], _ => none
  | v :: rest, i => if c == v then some i else findIndex c rest (i + 1)

/-- Glyph mapping stored as a string of code points, from `mapping.rs`. -/
structure StrGlyphMapping where
  data : List Nat
  replacement_index : Nat
  deriving DecidableEq

/-- Membership test, faithful to `StrGlyphMapping::contains`:
`self.chars().any(|v| v == c)`. -/
def StrGlyphMapping.contains (m : StrGlyphMapping) (c : Nat) : Bool :=
  (mappingChars m.data).any (fun v => v == c)

/-- Glyph index lookup, faithful to `StrGlyphMapping::index`: the position
of the first matching character of `chars()`, or the replacement index. -/
def StrGlyphMapping.index (m : StrGlyphMapping) (c : Nat) : Nat :=
  (findIndex c (mappingChars m.data) 0).getD m.replacement_index

/-- Range decomposition of a mapping data string, faithful to
`StrGlyphMapping::ranges`. Each item is `(start_index, start, end)`.
The running index advances by `end - start + 1` for a range segment, raw
code-point arithmetic as in the source (`end as usize - start as usize + 1`);
the subtraction underflows (a debug-build panic, modelled as `none`) when a
range's end precedes its start. -/
def mappingRangesAux (index : Nat) : List Nat → Option (List (Nat × Nat × Nat))
  | [] => some []
  | c :: rest =>
    if c = 0 then
      match rest with
      | s :: e :: rest2 =>
        if e < s then none
        else
          match mappingRangesAux (index + (e - s + 1)) rest2 with
          | some tail => some ((index, s, e) :: tail)
          | none => none
      | _ => some []
    else
      match mappingRangesAux (index + 1) rest with
      | some tail => some ((index, c, c) :: tail)
      | none => none

/-- Well-formedness of the ranges in a mapping data string: every escape
segment has its start at most its end. -/
def wfData : List Nat → Bool
  | [] => true
  | c :: rest =>
    if c = 0 then
      match rest with
      | s :: e :: rest2 => decide (s ≤ e) && wfData rest2
      | _ => true
    else wfData rest

/-- Point with signed integer coordinates (`embedded_graphics` `Point`). -/
structure Point where
  x : Int
  y : Int
  deriving DecidableEq

/-- Size with unsigned integer dimensions (`embedded_graphics` `Size`). -/
structure Size where
  width : Nat
  height : Nat
  deriving DecidableEq

/-- Axis-aligned rectangle (`embedded_graphics` `Rectangle`). -/
structure Rectangle where
  top_left : Point
  size : Size
  deriving DecidableEq

/-- Rectangle with a zero-area size at the origin (`Rectangle::zero()`). -/
def Rectangle.zeroRect : Rectangle := ⟨⟨0, 0⟩, ⟨0, 0⟩⟩

/-- Character cell size from `char_size.rs`; the fields are `ChSzTy = u8`
under the default feature set, so they are at most 255. -/
structure CharSize where
  width : Nat
  height : Nat
  deriving DecidableEq

/-- Maximum value of `ChSzTy` (`u8::MAX` under the default feature set). -/
def chSzTyMax : Nat := 255

/-- Monospaced bitmap font descriptor from `lib.rs`. `image_width` models
`image.size().width`, the declared pixel width of the raw atlas image. -/
structure MultiMonoFont where
  image_width : Nat
  character_size : CharSize
  character_spacing : Nat
  baseline : Nat
  glyph_mapping : StrGlyphMapping
  deriving DecidableEq

/-- The `NULL_FONT` sentinel from `lib.rs`: an empty atlas declared one
pixel wide, zero cell size, no spacing, empty mapping. -/
def nullFont : MultiMonoFont :=
  { image_width := 1
    character_size := ⟨0, 0⟩
    character_spacing := 0
    baseline := 0
    glyph_mapping := ⟨[], 0⟩ }

/-- Atlas sub-rectangle for a glyph, faithful to `MultiMonoFont::glyph`:
a zero cell width or a cell wider than the atlas yields the zero rectangle,
otherwise the glyph index is laid out row-major at
`glyphs_per_row = atlas_width / cell_width` cells per row. -/
def MultiMonoFont.glyph (f : MultiMonoFont) (c : Nat) : Rectangle :=
  if f.character_size.width = 0 ∨ f.image_width < f.character_size.width then
    Rectangle.zeroRect
  else
    let glyphs_per_row := f.image_width / f.character_size.width
    let glyph_index := f.glyph_mapping.index c
    let row := glyph_index / glyphs_per_row
    let char_x := (glyph_index - row * glyphs_per_row) * f.character_size.width
    let char_y := row * f.character_size.height
    ⟨⟨(char_x : Int), (char_y : Int)⟩,
      ⟨f.character_size.width, f.character_size.height⟩⟩

/-- Text baseline modes (`embedded_graphics` `Baseline`). -/
inductive Baseline where
  | top
  | bottom
  | middle
  | alphabetic
  deriving DecidableEq

/-- Horizontal text alignment (`embedded_graphics` `Alignment`; named `TextAlignment` here to avoid a Mathlib name clash). -/
inductive TextAlignment where
  | left
  | center
  | right
  deriving DecidableEq

/-- Line-height policy from `multi_mono_text_style.rs`. -/
inductive MultiMonoLineHeight where
  | max
  | min
  | specify (h : Nat)
  deriving DecidableEq

/-- Resolved line height, faithful to `get_line_height`: `Max` folds the
font cell heights with `ChSzTy::MIN = 0` as the start value, `Min` folds
with `ChSzTy::MAX`, `Specify(h)` ignores the fonts. -/
def getLineHeight (fonts_height : MultiMonoLineHeight)
    (fonts : List MultiMonoFont) : Nat :=
  match fonts_height with
  | .max =>
    fonts.foldl
      (fun mx f =>
        if mx < f.character_size.height then f.character_size.height else mx) 0
  | .min =>
    fonts.foldl
      (fun mn f =>
        if f.character_size.height < mn then f.character_size.height else mn)
      chSzTyMax
  | .specify h => h

/-- Style properties for text, from `multi_mono_text_style.rs`.
The `fonts` field models the `&[&MultiMonoFont]` slice. -/
structure MultiMonoTextStyle (C : Type) where
  text_color : Option C
  background_color : Option C
  fonts : List MultiMonoFont
  line_height : Nat

/-- Transparency test, faithful to `MultiMonoTextStyle::is_transparent`. -/
def MultiMonoTextStyle.is_transparent {C : Type}
    (s : MultiMonoTextStyle C) : Bool :=
  s.text_color.isNone && s.background_color.isNone

/-- First font whose mapping contains the character, faithfully modelling
`MultiMonoTextStyle::get_font_info`; the `fonts[0]` fallback (which in Rust
indexes — and would panic on an empty slice the builder never produces) is
modelled with `headD nullFont`. -/
def getFontInfo {C : Type} (style : MultiMonoTextStyle C)
    (c : Nat) : MultiMonoFont :=
  match style.fonts.find? (fun font => font.glyph_mapping.contains c) with
  | some font => font
  | none => style.fonts.headD nullFont

/-- Vertical offset between the line position and the top edge of the glyph
bounding box, faithful to `MultiMonoTextStyle::baseline_offset`
(`Nat` subtraction models `saturating_sub`). -/
def baselineOffset (baseline : Baseline) (font : MultiMonoFont) : Int :=
  match baseline with
  | .top => 0
  | .bottom => ((font.character_size.height - 1 : Nat) : Int)
  | .middle => (((font.character_size.height - 1) / 2 : Nat) : Int)
  | .alphabetic => (font.baseline : Int)

/-- Text measurement result (`embedded_graphics` `TextMetrics`). -/
structure TextMetrics where
  bounding_box : Rectangle
  next_position : Point
  deriving DecidableEq

/-- Accumulator of the character walk in `measure_string`. -/
structure MeasureAcc where
  bb_width : Nat
  bb_height : Nat
  baseline_max : Int
  font : MultiMonoFont

/-- Character walk of `MultiMonoTextStyle::measure_string`: accumulate
`cell_width + spacing`, track the maximum cell height and the maximum
baseline offset, and remember the last resolved font. The source computes
`(width + character_spacing) as u32`: the addition runs in `ChSzTy`
(`u8` under the default feature set) before the `u32` cast, so it is
reduced modulo 256 here (a debug build would panic on that overflow
instead); only the outer accumulation into `bb_width` is `u32`. -/
def measureLoop {C : Type} (style : MultiMonoTextStyle C)
    (baseline : Baseline) : List Nat → MeasureAcc → MeasureAcc
  | [], acc => acc
  | c :: cs, acc =>
    let font := getFontInfo style c
    measureLoop style baseline cs
      { bb_width :=
          acc.bb_width +
            (font.character_size.width + font.character_spacing) % 256
        bb_height := Nat.max acc.bb_height font.character_size.height
        baseline_max := max acc.baseline_max (baselineOffset baseline font)
        font := font }

/-- Measurement routine, faithful to `MultiMonoTextStyle::measure_string`:
after the walk the trailing spacing of the last resolved font is subtracted
back out with a saturating subtraction; the bounding box is anchored
`baseline_max` above `position` and `next_position` advances by the final
width along the x axis. -/
def measureString {C : Type} (style : MultiMonoTextStyle C)
    (text : List Nat) (position : Point) (baseline : Baseline) : TextMetrics :=
  let acc :=
    measureLoop style baseline text ⟨0, 0, 0, style.fonts.headD nullFont⟩
  let bb_width := acc.bb_width - acc.font.character_spacing
  { bounding_box :=
      ⟨⟨position.x, position.y - acc.baseline_max⟩, ⟨bb_width, acc.bb_height⟩⟩
    next_position := ⟨position.x + (bb_width : Int), position.y⟩ }

/-- Color configuration of the binary draw-target wrapper chosen by
`draw_string`: both colors, foreground only, or background only. -/
inductive ColorCfg (C : Type) where
  | both (fg bg : C)
  | fgOnly (fg : C)
  | bgOnly (bg : C)
  deriving DecidableEq

/-- Drawing operations emitted onto the wrapped target by `draw_string`.
The per-pixel compositing of a glyph bitmap is abstracted as a single
`glyphImage` event carrying the atlas sub-rectangle, the draw position and
the color configuration; `spacingFill` records the inter-glyph background
strip fill. -/
inductive DrawEvent (C : Type) where
  | glyphImage (glyph : Rectangle) (pos : Point) (cfg : ColorCfg C)
  | spacingFill (area : Rectangle) (cfg : ColorCfg C)
  deriving DecidableEq

/-- Character loop of `MultiMonoTextStyle::draw_string_binary`: draw each
glyph at the cursor, lowered by the baseline offset, advance by the cell
width, then — when the font declares positive spacing — fill the spacing
strip if a background color is set and advance by the spacing amount
regardless. -/
def drawStringBinary {C : Type} (style : MultiMonoTextStyle C)
    (cfg : ColorCfg C) (baseline : Baseline) :
    List Nat → Point → List (DrawEvent C) → List (DrawEvent C) × Point
  | [], next_pos, log => (log, next_pos)
  | c :: cs, next_pos, log =>
    let font := getFontInfo style c
    let glyph := font.glyph c
    let draw_pos : Point :=
      ⟨next_pos.x, next_pos.y - baselineOffset baseline font⟩
    let log := log ++ [DrawEvent.glyphImage glyph draw_pos cfg]
    let next_pos : Point :=
      ⟨next_pos.x + (font.character_size.width : Int), next_pos.y⟩
    if 0 < font.character_spacing then
      let log :=
        if style.background_color.isSome then
          log ++ [DrawEvent.spacingFill
            ⟨next_pos, ⟨font.character_spacing, style.line_height⟩⟩ cfg]
        else log
      drawStringBinary style cfg baseline cs
        ⟨next_pos.x + (font.character_spacing : Int), next_pos.y⟩ log
    else
      drawStringBinary style cfg baseline cs next_pos log

/-- Entry point faithful to `MultiMonoTextStyle::draw_string`: the three
colored configurations wrap the target and run the binary drawing loop; the
fully transparent configuration draws nothing and advances by the measured
bounding-box width. -/
def drawString {C : Type} (style : MultiMonoTextStyle C) (text : List Nat)
    (position : Point) (baseline : Baseline) (log : List (DrawEvent C)) :
    List (DrawEvent C) × Point :=
  match style.text_color, style.background_color with
  | some tc, some bc =>
    drawStringBinary style (.both tc bc) baseline text position log
  | some tc, none =>
    drawStringBinary style (.fgOnly tc) baseline text position log
  | none, some bc =>
    drawStringBinary style (.bgOnly bc) baseline text position log
  | none, none =>
    let tm := measureString style text position baseline
    (log, ⟨position.x + (tm.bounding_box.size.width : Int), position.y⟩)

/-- Mapping used by the documentation scenario: the ranges `a..=f` and
`1..=4`, encoded as the string `"\0af\0\u{0031}\u{0034}"`. -/
def scenarioData : List Nat := [0, 97, 102, 0, 49, 52]

/-- A two-character mapping claiming `a` and `b` at indices 0 and 1. -/
def abMapping : StrGlyphMapping := ⟨[97, 98], 0⟩

/-- A font with 2x1 pixel cells, no spacing, atlas 8 pixels wide. -/
def fontW2 : MultiMonoFont :=
  { image_width := 8
    character_size := ⟨2, 1⟩
    character_spacing := 0
    baseline := 0
    glyph_mapping := abMapping }

/-- A font with 1x1 pixel cells and character spacing 1. -/
def fontW1S1 : MultiMonoFont :=
  { image_width := 8
    character_size := ⟨1, 1⟩
    character_spacing := 1
    baseline := 0
    glyph_mapping := ⟨[97], 0⟩ }

/-- Foreground-only style over the spaced font. -/
def styleFgS1 : MultiMonoTextStyle Nat := ⟨some 1, none, [fontW1S1], 1⟩

/-- Fully transparent style over the spaced font. -/
def styleTrS1 : MultiMonoTextStyle Nat := ⟨none, none, [fontW1S1], 1⟩

/-- Foreground-only style over the 2-pixel-wide font. -/
def styleFgW2 : MultiMonoTextStyle Nat := ⟨some 1, none, [fontW2], 1⟩

/-- Total advance width accumulated over a text: for each character the
resolved font's cell width plus its character spacing. -/
def rawWidth {C : Type} (style : MultiMonoTextStyle C) : List Nat → Nat
  | [] => 0
  | c :: cs =>
    ((getFontInfo style c).character_size.width +
      (getFontInfo style c).character_spacing) + rawWidth style cs

/-- Total advance width as `measure_string` accumulates it: for each
character, the resolved font's cell width plus its character spacing added
in `ChSzTy` — hence reduced modulo 256 — and summed exactly from there (the
outer accumulation is `u32`). -/
def rawWidthWrapped {C : Type} (style : MultiMonoTextStyle C) :
    List Nat → Nat
  | [] => 0
  | c :: cs =>
    ((getFontInfo style c).character_size.width +
      (getFontInfo style c).character_spacing) % 256 +
      rawWidthWrapped style cs

/-- Font resolved for the last character of a text, starting from `f`
(the value the `font` variable of `measure_string` holds after the walk). -/
def lastFont {C : Type} (style : MultiMonoTextStyle C)
    (f : MultiMonoFont) : List Nat → MultiMonoFont
  | [] => f
  | c :: cs => lastFont style (getFontInfo style c) cs

/-- Binary pixel color (`embedded_graphics` `BinaryColor`). -/
inductive BinaryColor where
  | on
  | off
  deriving DecidableEq

/-- Operations recorded against the parent color draw target. -/
inductive TargetOp (C : Type) where
  | fillSolid (area : Rectangle) (color : C)
  deriving DecidableEq

/-- Solid fill through the binary-to-color adapter, faithful to
`MultiMonoFontDrawTarget::fill_solid` in `draw_target.rs`: `On` forwards a
fill of the text color to the parent, `Off` forwards a fill of the
background color when one is configured and otherwise succeeds without
touching the parent. The parent target is an operation log whose own fills
always succeed; `none` would model a panic and is never produced here. -/
def MultiMonoFontDrawTarget.fill_solid {C : Type} (text_color : C)
    (background_color : Option C) (area : Rectangle) (color : BinaryColor)
    (parent : List (TargetOp C)) : Option (List (TargetOp C)) :=
  match color with
  | .on => some (parent ++ [TargetOp.fillSolid area text_color])
  | .off =>
    match background_color with
    | some b => some (parent ++ [TargetOp.fillSolid area b])
    | none => some parent

/-- Whole-surface clear through the adapter, faithful to
`MultiMonoFontDrawTarget::clear` in `draw_target.rs`, whose body is
`unreachable!()`: invoking it panics, modelled as `none`. -/
def MultiMonoFontDrawTarget.clear {C : Type} (text_color : C)
    (background_color : Option C) (color : BinaryColor)
    (parent : List (TargetOp C)) : Option (List (TargetOp C)) :=
  none

/-- Raw pixel-iterator draw through the adapter, faithful to
`MultiMonoFontDrawTarget::draw_iter` in `draw_target.rs`, whose body is
`unreachable!()`: invoking it panics, modelled as `none`. -/
def MultiMonoFontDrawTarget.draw_iter {C : Type} (text_color : C)
    (background_color : Option C) (pixels : List (Point × BinaryColor))
    (parent : List (TargetOp C)) : Option (List (TargetOp C)) :=
  none

/-- Componentwise point addition (`embedded_graphics` `Point + Point`). -/
def Point.add (p q : Point) : Point := ⟨p.x + q.x, p.y + q.y⟩

/-- Componentwise point subtraction (`embedded_graphics` `Point - Point`). -/
def Point.sub (p q : Point) : Point := ⟨p.x - q.x, p.y - q.y⟩

/-- Componentwise point division by an `i32` scalar with Rust's truncating
division (`embedded_graphics` `Point / i32`). -/
def Point.divI (p : Point) (d : Int) : Point := ⟨p.x.tdiv d, p.y.tdiv d⟩

/-- Static text drawable from `static_text.rs`, specialised to the
repository's `MultiMonoTextStyle` character style. -/
structure StaticText (C : Type) where
  text : List Nat
  rectangle : Rectangle
  character_style : MultiMonoTextStyle C
  alignment : TextAlignment
  baseline : Baseline

/-- Trailing carriage-return strip from the closure in `StaticText::lines`:
drops the last character when it is `\r` (byte 13), the only line-ending
normalization performed. -/
def stripCr (line : List Nat) : List Nat :=
  if line.getLast? = some 13 then line.dropLast else line

/-- Split on line-feed characters, with Rust `str::split('\n')` semantics:
the empty text yields one empty line, and a trailing separator yields a
trailing empty line. -/
def splitNl : List Nat → List (List Nat)
  | [] => [[]]
  | c :: rest =>
    let r := splitNl rest
    if c = 10 then [] :: r
    else (c :: r.headD []) :: r.tail

/-- Position of the first line, faithful to the vertical setup in
`StaticText::lines`: `offset_y` is `line_height` times the line-feed count,
and Bottom/Alphabetic/Middle baselines shift the start down inside the
rectangle (Rust `i32` division truncates, `Int.tdiv`). -/
def linesBasePos {C : Type} (st : StaticText C) : Point :=
  let line_feed : Int := (st.text.count 10 : Int)
  let offset_y : Int := (st.character_style.line_height : Int) * line_feed
  let height : Int := (st.rectangle.size.height : Int)
  match st.baseline with
  | .top => st.rectangle.top_left
  | .bottom =>
    ⟨st.rectangle.top_left.x,
      st.rectangle.top_left.y + (height - 1 - offset_y)⟩
  | .alphabetic =>
    ⟨st.rectangle.top_left.x,
      st.rectangle.top_left.y + (height - 1 - offset_y)⟩
  | .middle =>
    ⟨st.rectangle.top_left.x,
      st.rectangle.top_left.y + (height - 1 - offset_y).tdiv 2⟩

/-- Horizontal anchor of one line, faithful to the alignment match in
`StaticText::lines`. The measurement used by Right/Center runs on the line
as passed in — before any carriage-return stripping. -/
def lineAnchor {C : Type} (st : StaticText C) (position : Point)
    (line : List Nat) : Point :=
  match st.alignment with
  | .left => position
  | .right =>
    let metrics := measureString st.character_style line ⟨0, 0⟩ st.baseline
    Point.sub (Point.add position ⟨(st.rectangle.size.width : Int), 0⟩)
      (Point.sub metrics.next_position ⟨1, 0⟩)
  | .center =>
    let metrics := measureString st.character_style line ⟨0, 0⟩ st.baseline
    Point.sub
      (Point.add position ⟨(st.rectangle.size.width : Int).tdiv 2, 0⟩)
      (Point.divI (Point.sub metrics.next_position ⟨1, 0⟩) 2)

/-- Iteration of `StaticText::lines` over the split lines, carrying the
mutable `position` cursor: each entry pairs the line with its anchor, the
anchor is computed from the unstripped line, the returned line has a
trailing carriage return stripped, and the cursor then advances by
`line_height`. -/
def linesAux {C : Type} (st : StaticText C) :
    List (List Nat) → Point → List (List Nat × Point)
  | [], _ => []
  | line :: rest, position =>
    (stripCr line, lineAnchor st position line) ::
      linesAux st rest
        ⟨position.x, position.y + (st.character_style.line_height : Int)⟩

/-- The full `StaticText::lines` iterator: split the text on line feeds and
walk the lines from the base position. -/
def linesList {C : Type} (st : StaticText C) : List (List Nat × Point) :=
  linesAux st (splitNl st.text) (linesBasePos st)

/-- Static text over the 2-pixel-wide font, centered in a 10-wide
rectangle. -/
def stC3 : StaticText Nat :=
  ⟨[97, 98], ⟨⟨0, 0⟩, ⟨10, 5⟩⟩, styleFgW2, .center, .top⟩

/-- Static text `"a\r"` over the 2-pixel-wide font, right-aligned in a
10-wide rectangle. -/
def stC4 : StaticText Nat :=
  ⟨[97, 13], ⟨⟨0, 0⟩, ⟨10, 5⟩⟩, styleFgW2, .right, .top⟩

/-- Replacement of an empty font list by the zero-sized sentinel before
line-height aggregation, from `MultiMonoTextStyleBuilder::font`. -/
def effectiveFonts (font_list : List MultiMonoFont) : List MultiMonoFont :=
  if font_list.length = 0 then [nullFont] else font_list

/-- Builder from `multi_mono_text_style.rs`, holding the style being
configured. -/
structure MultiMonoTextStyleBuilder (C : Type) where
  style : MultiMonoTextStyle C

/-- Font-list setter, faithful to `MultiMonoTextStyleBuilder::font`: an
empty list is replaced by the `NULL_FONT` sentinel, then the line height is
resolved once and stored in the style. -/
def MultiMonoTextStyleBuilder.font {C : Type}
    (b : MultiMonoTextStyleBuilder C) (font_list : List MultiMonoFont)
    (line_height : MultiMonoLineHeight) : MultiMonoTextStyleBuilder C :=
  let fonts := effectiveFonts font_list
  ⟨{ text_color := b.style.text_color
     background_color := b.style.background_color
     fonts := fonts
     line_height := getLineHeight line_height fonts }⟩

/-- Accessor faithful to `MultiMonoTextStyle::line_height()`, which returns
the cached field without recomputing. -/
def MultiMonoTextStyle.lineHeight {C : Type} (s : MultiMonoTextStyle C) :
    Nat :=
  s.line_height

/-- A font whose cell height is `h`, used by the line-height scenario. -/
def fontH (h : Nat) : MultiMonoFont :=
  { image_width := 8
    character_size := ⟨1, h⟩
    character_spacing := 0
    baseline := 0
    glyph_mapping := ⟨[], 0⟩ }

/-- Segments of a mapping data string: a single character or an inclusive
range escape. -/
inductive MapSeg where
  | single (c : Nat)
  | range (s e : Nat)
  deriving DecidableEq

/-- Validity of a segment as an encodable unit: a single-character segment
must not be the NUL escape marker itself. -/
def validSegB : MapSeg → Bool
  | .single c => c != 0
  | .range _ _ => true

/-- Encoding of a segment list into mapping data, per the `StrGlyphMapping`
string contract: a range is the marker followed by its two endpoints. -/
def encodeSegs : List MapSeg → List Nat
  | [] => []
  | .single c :: rest => c :: encodeSegs rest
  | .range s e :: rest => 0 :: s :: e :: encodeSegs rest

/-- Characters claimed by one segment. -/
def segChars : MapSeg → List Nat
  | .single c => [c]
  | .range s e => charRange s e

lemma findIndex_none (c : Nat) :
    ∀ (l : List Nat) (n : Nat), c ∉ l → findIndex c l n = none := by
  intro l
  induction l with
  | nil => intro n _; rfl
  | cons v vs ih =>
    intro n hc
    have hne : c ≠ v := fun h => hc (h ▸ List.mem_cons_self v vs)
    have hmem : c ∉ vs := fun h => hc (List.mem_cons_of_mem v h)
    simpa [findIndex, hne] using ih (n + 1) hmem

lemma findIndex_first (c : Nat) :
    ∀ (l : List Nat) (i n : Nat), l.get? i = some c → c ∉ l.take i →
      findIndex c l n = some (n + i) := by
  intro l
  induction l with
  | nil => intro i n hget _; simp at hget
  | cons v vs ih =>
    intro i n hget htake
    cases i with
    | zero =>
      simp only [List.get?] at hget
      injection hget with hvc
      simp [findIndex, hvc]
    | succ i =>
      simp only [List.get?] at hget
      have hne : c ≠ v := by
        intro h
        exact htake (by simp [List.take, h])
      have htake' : c ∉ vs.take i := by
        intro h
        exact htake (by simp [List.take, h])
      have hrec := ih i (n + 1) hget htake'
      simp only [findIndex, hne, beq_iff_eq, if_false, hrec]
      congr 1
      omega

lemma contains_iff_mem (m : StrGlyphMapping) (c : Nat) :
    m.contains c = true ↔ c ∈ mappingChars m.data := by
  simp [StrGlyphMapping.contains, List.any_eq_true]

lemma index_of_not_mem (m : StrGlyphMapping) (c : Nat)
    (h : c ∉ mappingChars m.data) : m.index c = m.replacement_index := by
  simp [StrGlyphMapping.index, findIndex_none c (mappingChars m.data) 0 h]

/-- Claim C2, counterexample. The mapping `"aa"` claims `a` twice: the
character at position 1 of `chars()` is `a`, yet `index(a)` is 0, not 1 —
`index` returns the position of the first occurrence, so the n-th character
of the `chars()` enumeration does not always have index n. -/
theorem c2_counterexample :
    (mappingChars [97, 97]).get? 1 = some 97 ∧
    StrGlyphMapping.index ⟨[97, 97], 7⟩ 97 = 0 ∧ (0 : Nat) ≠ 1 := by
  decide

/-- Claim C2, amended. For every character claimed by a mapping, `index`
returns the position of its first occurrence in the `chars()` enumeration
(so the n-th character of `chars()` has index n whenever it does not also
occur earlier); for every character not claimed, `index` is the replacement
index and `contains` is false; the scenario mapping `"\0af\0\u{0031}\u{0034}"`
gives `index(a)=0`, `index(f)=5`, `index(1)=6`, `index(4)=9`, and `index(z)`
equal to the replacement index with `contains(z)` false. -/
theorem c2_amended :
    (∀ (m : StrGlyphMapping) (i c : Nat),
        (mappingChars m.data).get? i = some c →
        c ∉ (mappingChars m.data).take i →
        m.index c = i) ∧
    (∀ (m : StrGlyphMapping) (c : Nat),
        c ∉ mappingChars m.data →
        m.index c = m.replacement_index ∧ m.contains c = false) ∧
    (∀ r : Nat,
        StrGlyphMapping.index ⟨scenarioData, r⟩ 97 = 0 ∧
        StrGlyphMapping.index ⟨scenarioData, r⟩ 102 = 5 ∧
        StrGlyphMapping.index ⟨scenarioData, r⟩ 49 = 6 ∧
        StrGlyphMapping.index ⟨scenarioData, r⟩ 52 = 9 ∧
        StrGlyphMapping.index ⟨scenarioData, r⟩ 122 = r ∧
        StrGlyphMapping.contains ⟨scenarioData, r⟩ 122 = false) := by
  refine ⟨?_, ?_, ?_⟩
  · intro m i c hget htake
    have h := findIndex_first c (mappingChars m.data) i 0 hget htake
    unfold StrGlyphMapping.index
    rw [h]
    simp
  · intro m c h
    refine ⟨index_of_not_mem m c h, ?_⟩
    rcases hcon : m.contains c with _ | _
    · rfl
    · exact absurd ((contains_iff_mem m c).mp hcon) h
  · intro r
    exact ⟨rfl, rfl, rfl, rfl, rfl, rfl⟩

/-- Claim C2, witness for the amended theorem: applied to the scenario
mapping at the character `f` (position 5 of the enumeration, no earlier
occurrence) and at the unclaimed character `z`. -/
theorem c2_amended_witness :
    StrGlyphMapping.index ⟨scenarioData, 33⟩ 102 = 5 ∧
    StrGlyphMapping.index ⟨scenarioData, 33⟩ 122 = 33 ∧
    StrGlyphMapping.contains ⟨scenarioData, 33⟩ 122 = false := by
  refine ⟨c2_amended.1 ⟨scenarioData, 33⟩ 5 102 (by decide) (by decide), ?_, ?_⟩
  · exact (c2_amended.2.1 ⟨scenarioData, 33⟩ 122 (by decide)).1
  · exact (c2_amended.2.1 ⟨scenarioData, 33⟩ 122 (by decide)).2

/-- Claim C6. If the cell width is zero or exceeds the atlas pixel width,
`glyph` returns the zero-area rectangle at the origin for every character;
otherwise the cell width is positive and the divisor
`glyphs_per_row = atlas_width / cell_width` is at least one, so no division
by zero is ever performed. -/
theorem c6_glyph_guard (f : MultiMonoFont) (c : Nat) :
    ((f.character_size.width = 0 ∨ f.image_width < f.character_size.width) →
      f.glyph c = Rectangle.zeroRect) ∧
    (f.character_size.width ≠ 0 → f.character_size.width ≤ f.image_width →
      0 < f.character_size.width ∧
      1 ≤ f.image_width / f.character_size.width) := by
  constructor
  · intro h
    simp [MultiMonoFont.glyph, h]
  · intro h1 h2
    have hpos : 0 < f.character_size.width := Nat.pos_of_ne_zero h1
    exact ⟨hpos, (Nat.one_le_div_iff hpos).mpr h2⟩

/-- Claim C6, witness: the zero-width `NULL_FONT` yields the zero glyph
rectangle, and for a 2-pixel-wide cell in an 8-pixel-wide atlas the divisor
is at least one. -/
theorem c6_glyph_guard_witness :
    nullFont.glyph 97 = Rectangle.zeroRect ∧
    (0 < fontW2.character_size.width ∧
      1 ≤ fontW2.image_width / fontW2.character_size.width) :=
  ⟨(c6_glyph_guard nullFont 97).1 (Or.inl rfl),
    (c6_glyph_guard fontW2 97).2 (by decide) (by decide)⟩

lemma drawStringBinary_snd {C : Type} (style : MultiMonoTextStyle C)
    (cfg : ColorCfg C) (baseline : Baseline) :
    ∀ (text : List Nat) (p : Point) (log : List (DrawEvent C)),
      (drawStringBinary style cfg baseline text p log).2 =
        ⟨p.x + (rawWidth style text : Int), p.y⟩ := by
  intro text
  induction text with
  | nil => intro p log; simp [drawStringBinary, rawWidth]
  | cons c cs ih =>
    intro p log
    simp only [drawStringBinary, rawWidth]
    split
    · rw [ih]
      simp only [Point.mk.injEq, and_true]
      push_cast
      ring
    · rename_i hs
      have hs0 : (getFontInfo style c).character_spacing = 0 := by omega
      rw [ih]
      simp only [Point.mk.injEq, and_true, hs0]
      push_cast
      ring

lemma measureLoop_bb_width {C : Type} (style : MultiMonoTextStyle C)
    (baseline : Baseline) :
    ∀ (text : List Nat) (acc : MeasureAcc),
      (measureLoop style baseline text acc).bb_width =
        acc.bb_width + rawWidthWrapped style text := by
  intro text
  induction text with
  | nil => intro acc; simp [measureLoop, rawWidthWrapped]
  | cons c cs ih =>
    intro acc
    simp only [measureLoop, rawWidthWrapped]
    rw [ih]
    dsimp
    omega

lemma measureLoop_font {C : Type} (style : MultiMonoTextStyle C)
    (baseline : Baseline) :
    ∀ (text : List Nat) (acc : MeasureAcc),
      (measureLoop style baseline text acc).font =
        lastFont style acc.font text := by
  intro text
  induction text with
  | nil => intro acc; simp [measureLoop, lastFont]
  | cons c cs ih =>
    intro acc
    simp only [measureLoop, lastFont]
    rw [ih]

lemma lastFont_spacing_le_rawWidth {C : Type} (style : MultiMonoTextStyle C) :
    ∀ (text : List Nat) (f : MultiMonoFont), text ≠ [] →
      (lastFont style f text).character_spacing ≤ rawWidth style text := by
  intro text
  induction text with
  | nil => intro f h; exact absurd rfl h
  | cons c cs ih =>
    intro f _
    cases cs with
    | nil => simp [lastFont, rawWidth]
    | cons c2 cs2 =>
      have h := ih (getFontInfo style c) (by simp)
      simp only [lastFont, rawWidth] at h ⊢
      omega

lemma getFontInfo_mem {C : Type} (style : MultiMonoTextStyle C) (c : Nat)
    (hf : style.fonts ≠ []) : getFontInfo style c ∈ style.fonts := by
  unfold getFontInfo
  cases hfind : style.fonts.find?
      (fun font => font.glyph_mapping.contains c) with
  | some font => exact List.mem_of_find?_eq_some hfind
  | none =>
    cases hl : style.fonts with
    | nil => exact absurd hl hf
    | cons f fs => simp

lemma rawWidthWrapped_eq_rawWidth {C : Type} (style : MultiMonoTextStyle C)
    (hf : style.fonts ≠ [])
    (hw : ∀ f ∈ style.fonts,
      f.character_size.width + f.character_spacing ≤ 255) :
    ∀ text : List Nat, rawWidthWrapped style text = rawWidth style text := by
  intro text
  induction text with
  | nil => rfl
  | cons c cs ih =>
    have hb := hw (getFontInfo style c) (getFontInfo_mem style c hf)
    simp only [rawWidthWrapped, rawWidth, ih]
    rw [Nat.mod_eq_of_lt (by omega)]

lemma measureString_next {C : Type} (style : MultiMonoTextStyle C)
    (text : List Nat) (position : Point) (baseline : Baseline) :
    (measureString style text position baseline).next_position =
      ⟨position.x +
          ((rawWidthWrapped style text -
            (lastFont style (style.fonts.headD nullFont) text).character_spacing
            : Nat) : Int),
        position.y⟩ := by
  unfold measureString
  dsimp
  rw [measureLoop_bb_width, measureLoop_font]
  simp

/-- Claim C1, counterexample. Over a single font with cell width 1 and
character spacing 1, drawing the one-character string `"a"` from the origin
with a foreground-only style advances the cursor to x = 2 (the trailing
spacing is included), while `measure_string` reports `next_position` x = 1
(it subtracts the trailing spacing of the last character's font); the same
transparent style advances only to x = 1, so the cursor advance is not
color-independent either. -/
theorem c1_counterexample :
    (drawString styleFgS1 [97] ⟨0, 0⟩ .top ([] : List (DrawEvent Nat))).2 =
      ⟨2, 0⟩ ∧
    (measureString styleFgS1 [97] ⟨0, 0⟩ .top).next_position = ⟨1, 0⟩ ∧
    (drawString styleTrS1 [97] ⟨0, 0⟩ .top ([] : List (DrawEvent Nat))).2 =
      ⟨1, 0⟩ ∧
    ((⟨2, 0⟩ : Point) ≠ ⟨1, 0⟩) := by
  decide

/-- Claim C1, amended. For styles whose fonts each declare cell width plus
character spacing at most `ChSzTy::MAX` = 255 — beyond that the `u8`
addition inside `measure_string` wraps in release builds (panics in debug
builds), while the drawing loop adds the two `i32` casts separately, and
measurement diverges from drawing arbitrarily — the advance returned by a
successful `draw_string` agrees with `measure_string`'s `next_position` for
the fully transparent color configuration and for empty text; for any of
the three colored configurations and nonempty text it exceeds
`next_position` by exactly the character spacing of the last character's
resolved font (the three colored configurations agree with each other,
whatever colors are chosen), so the claimed equality holds precisely when
that trailing spacing is zero. -/
theorem c1_amended {C : Type} (style : MultiMonoTextStyle C)
    (hf : style.fonts ≠ [])
    (hw : ∀ f ∈ style.fonts,
      f.character_size.width + f.character_spacing ≤ 255)
    (text : List Nat) (position : Point)
    (baseline : Baseline) (log : List (DrawEvent C)) :
    ((style.is_transparent = true ∨ text = []) →
      (drawString style text position baseline log).2 =
        (measureString style text position baseline).next_position) ∧
    (style.is_transparent = false → text ≠ [] →
      (drawString style text position baseline log).2 =
        ⟨(measureString style text position baseline).next_position.x +
            ((lastFont style (style.fonts.headD nullFont) text).character_spacing
              : Int),
          position.y⟩) := by
  have hnext := measureString_next style text position baseline
  rw [rawWidthWrapped_eq_rawWidth style hf hw text] at hnext
  rcases htc : style.text_color with _ | tc <;>
    rcases hbc : style.background_color with _ | bc
  · constructor
    · intro _
      simp only [drawString, htc, hbc]
      rfl
    · intro h _
      simp [MultiMonoTextStyle.is_transparent, htc, hbc] at h
  all_goals constructor
  · intro h
    rcases h with h | h
    · simp [MultiMonoTextStyle.is_transparent, htc, hbc] at h
    · subst h
      simp only [drawString, htc, hbc, drawStringBinary]
      rw [hnext]
      simp [rawWidth]
  · intro _ hne
    simp only [drawString, htc, hbc]
    rw [drawStringBinary_snd, hnext]
    have hle := lastFont_spacing_le_rawWidth style text
      (style.fonts.headD nullFont) hne
    simp only [Point.mk.injEq, and_true]
    rw [Nat.cast_sub hle]
    ring
  · intro h
    rcases h with h | h
    · simp [MultiMonoTextStyle.is_transparent, htc, hbc] at h
    · subst h
      simp only [drawString, htc, hbc, drawStringBinary]
      rw [hnext]
      simp [rawWidth]
  · intro _ hne
    simp only [drawString, htc, hbc]
    rw [drawStringBinary_snd, hnext]
    have hle := lastFont_spacing_le_rawWidth style text
      (style.fonts.headD nullFont) hne
    simp only [Point.mk.injEq, and_true]
    rw [Nat.cast_sub hle]
    ring
  · intro h
    rcases h with h | h
    · simp [MultiMonoTextStyle.is_transparent, htc, hbc] at h
    · subst h
      simp only [drawString, htc, hbc, drawStringBinary]
      rw [hnext]
      simp [rawWidth]
  · intro _ hne
    simp only [drawString, htc, hbc]
    rw [drawStringBinary_snd, hnext]
    have hle := lastFont_spacing_le_rawWidth style text
      (style.fonts.headD nullFont) hne
    simp only [Point.mk.injEq, and_true]
    rw [Nat.cast_sub hle]
    ring

/-- Claim C1, witness for the amended theorem: applied to the
foreground-only spaced style on `"a"`, whose colored advance exceeds the
measured next position by the spacing 1. -/
theorem c1_amended_witness :
    (drawString styleFgS1 [97] ⟨0, 0⟩ .top ([] : List (DrawEvent Nat))).2 =
      ⟨(measureString styleFgS1 [97] ⟨0, 0⟩ .top).next_position.x +
          ((lastFont styleFgS1 (styleFgS1.fonts.headD nullFont)
            [97]).character_spacing : Int),
        (0 : Int)⟩ :=
  (c1_amended styleFgS1 (by decide) (by decide) [97] ⟨0, 0⟩ .top []).2
    (by decide) (by decide)

/-- Claim C8. A style with both colors absent draws nothing: the target's
operation log is unchanged and the returned point is the start position
advanced horizontally by the measured bounding-box width, which is exactly
`measure_string`'s `next_position`, for every string, position and
baseline. -/
theorem c8_transparent_draw {C : Type} (style : MultiMonoTextStyle C)
    (h1 : style.text_color = none) (h2 : style.background_color = none)
    (text : List Nat) (position : Point) (baseline : Baseline)
    (log : List (DrawEvent C)) :
    drawString style text position baseline log =
      (log, (measureString style text position baseline).next_position) := by
  simp only [drawString, h1, h2]
  rfl

/-- Claim C8, witness: the transparent spaced style drawing `"a"`. -/
theorem c8_transparent_draw_witness :
    drawString styleTrS1 [97] ⟨0, 0⟩ .top ([] : List (DrawEvent Nat)) =
      ([], (measureString styleTrS1 [97] ⟨0, 0⟩ .top).next_position) :=
  c8_transparent_draw styleTrS1 rfl rfl [97] ⟨0, 0⟩ .top []

/-- Claim C7. Through the binary-to-color adapter, filling with `On`
forwards a solid fill of the foreground color to the parent; filling with
`Off` forwards a solid fill of the background color when one is configured,
and otherwise leaves the parent untouched and succeeds; the whole-surface
clear operation and the raw pixel-iterator draw operation panic
(`unreachable!()`, modelled as `none`) instead of silently succeeding. -/
theorem c7_adapter {C : Type} (text_color : C) (background_color : Option C)
    (area : Rectangle) (parent : List (TargetOp C)) (color : BinaryColor)
    (pixels : List (Point × BinaryColor)) :
    MultiMonoFontDrawTarget.fill_solid text_color background_color area
        .on parent =
      some (parent ++ [TargetOp.fillSolid area text_color]) ∧
    (∀ b, background_color = some b →
      MultiMonoFontDrawTarget.fill_solid text_color background_color area
          .off parent =
        some (parent ++ [TargetOp.fillSolid area b])) ∧
    (background_color = none →
      MultiMonoFontDrawTarget.fill_solid text_color background_color area
          .off parent =
        some parent) ∧
    MultiMonoFontDrawTarget.clear text_color background_color color
        parent = none ∧
    MultiMonoFontDrawTarget.draw_iter text_color background_color pixels
        parent = none := by
  refine ⟨rfl, ?_, ?_, rfl, rfl⟩
  · rintro b rfl
    rfl
  · rintro rfl
    rfl

/-- Claim C7, witness: a background-configured adapter forwarding an `Off`
fill of the background color, and the clear operation panicking. -/
theorem c7_adapter_witness :
    MultiMonoFontDrawTarget.fill_solid (1 : Nat) (some 2) Rectangle.zeroRect
        .off [] =
      some [TargetOp.fillSolid Rectangle.zeroRect 2] ∧
    MultiMonoFontDrawTarget.clear (1 : Nat) (some 2) .on [] = none :=
  ⟨(c7_adapter 1 (some 2) Rectangle.zeroRect [] .on []).2.1 2 rfl,
    (c7_adapter 1 (some 2) Rectangle.zeroRect [] .on []).2.2.2.1⟩

lemma linesAux_get? {C : Type} (st : StaticText C) :
    ∀ (ls : List (List Nat)) (pos : Point) (i : Nat),
      (linesAux st ls pos).get? i =
        (ls.get? i).map (fun line =>
          (stripCr line,
            lineAnchor st
              ⟨pos.x,
                pos.y + (i : Int) * (st.character_style.line_height : Int)⟩
              line)) := by
  intro ls
  induction ls with
  | nil => intro pos i; simp [linesAux]
  | cons l rest ih =>
    intro pos i
    cases i with
    | zero => simp [linesAux]
    | succ i =>
      simp only [linesAux, List.get?, ih]
      cases hg : rest.get? i with
      | none => rfl
      | some line =>
        simp only [Option.map_some']
        push_cast
        ring_nf

lemma linesBasePos_x {C : Type} (st : StaticText C) :
    (linesBasePos st).x = st.rectangle.top_left.x := by
  unfold linesBasePos
  cases st.baseline <;> rfl

/-- Claim C3, counterexample. Text `"ab"` measures width W = 4; centered in
a rectangle of width R = 10 starting at x = 0, the claim places the anchor
at `(R - W) / 2 = 3`, but `lines()` anchors it at
`R / 2 - (W - 1) / 2 = 4`. -/
theorem c3_counterexample :
    (measureString styleFgW2 [97, 98] ⟨0, 0⟩ .top).bounding_box.size.width =
      4 ∧
    linesList stC3 = [([97, 98], ⟨4, 0⟩)] ∧
    ((10 : Int) - 4).tdiv 2 = 3 ∧ ((4 : Int) ≠ 0 + 3) := by
  decide

/-- Claim C3, amended. For every line produced by `StaticText::lines`, the
anchor x coordinate is: Left — the rectangle's left edge; Right — the left
edge plus the rectangle width minus (measured next-position x minus 1),
i.e. one more than the exclusive right edge minus the measured width;
Center — the left edge plus the truncated half rectangle width minus the
truncated half of (measured next-position x minus 1). The measurement runs
on the line before carriage-return stripping, and the measured
next-position x from the origin equals the measured bounding-box width. -/
theorem c3_amended {C : Type} (st : StaticText C) (i : Nat) (line : List Nat)
    (hline : (splitNl st.text).get? i = some line) :
    ((linesList st).get? i).map (fun e => e.2.x) =
      some (match st.alignment with
        | .left => st.rectangle.top_left.x
        | .right =>
          st.rectangle.top_left.x + (st.rectangle.size.width : Int) -
            ((measureString st.character_style line ⟨0, 0⟩
              st.baseline).next_position.x - 1)
        | .center =>
          st.rectangle.top_left.x + ((st.rectangle.size.width : Int)).tdiv 2 -
            ((measureString st.character_style line ⟨0, 0⟩
              st.baseline).next_position.x - 1).tdiv 2) := by
  unfold linesList
  rw [linesAux_get? st (splitNl st.text) (linesBasePos st) i, hline]
  simp only [Option.map_some', Option.some.injEq]
  have hx := linesBasePos_x st
  unfold lineAnchor
  cases st.alignment <;>
    simp [Point.add, Point.sub, Point.divI, hx]

/-- Claim C3, witness for the amended theorem: the centered `"ab"` layout
anchors at x = 4. -/
theorem c3_amended_witness :
    ((linesList stC3).get? 0).map (fun e => e.2.x) = some 4 := by
  rw [c3_amended stC3 0 [97, 98] (by decide)]
  decide

/-- Claim C4, counterexample. Right-aligning the single line `"a\r"` in a
10-wide rectangle: the carriage return is stripped from the drawn line, but
the anchor is computed from the measured width of the unstripped line
(width 4, anchor x = 7); had the line been stripped before measuring
(width 2), the anchor would be x = 9. -/
theorem c4_counterexample :
    linesList stC4 = [([97], ⟨7, 0⟩)] ∧
    (measureString styleFgW2 [97] ⟨0, 0⟩ .top).next_position.x = 2 ∧
    ((0 : Int) + 10 - (2 - 1) = 9) ∧ ((7 : Int) ≠ 9) := by
  decide

/-- Claim C4, amended. `StaticText::lines` splits the text on line-feed
characters only; each produced entry pairs the split line with one trailing
carriage return stripped (the only normalization, applied before drawing)
with an anchor computed by the alignment rule from the line as split — that
is, the Right/Center measurement still includes the trailing carriage
return. -/
theorem c4_amended {C : Type} (st : StaticText C) (i : Nat) (line : List Nat)
    (hline : (splitNl st.text).get? i = some line) :
    (linesList st).get? i =
      some (stripCr line,
        lineAnchor st
          ⟨(linesBasePos st).x,
            (linesBasePos st).y +
              (i : Int) * (st.character_style.line_height : Int)⟩
          line) := by
  unfold linesList
  rw [linesAux_get? st (splitNl st.text) (linesBasePos st) i, hline]
  rfl

/-- Claim C4, witness for the amended theorem: the right-aligned `"a\r"`
layout yields the stripped line `"a"` anchored at x = 7. -/
theorem c4_amended_witness :
    (linesList stC4).get? 0 = some ([97], ⟨7, 0⟩) := by
  rw [c4_amended stC4 0 [97, 13] (by decide)]
  decide

lemma foldl_maxHeight_le (l : List MultiMonoFont) :
    ∀ a : Nat,
      a ≤ l.foldl
        (fun mx f =>
          if mx < f.character_size.height then f.character_size.height
          else mx) a := by
  induction l with
  | nil => intro a; exact Nat.le_refl a
  | cons f fs ih =>
    intro a
    refine Nat.le_trans ?_ (ih (if a < f.character_size.height
      then f.character_size.height else a))
    split <;> omega

lemma foldl_maxHeight_mem (l : List MultiMonoFont) :
    ∀ a : Nat,
      l.foldl
          (fun mx f =>
            if mx < f.character_size.height then f.character_size.height
            else mx) a = a ∨
        ∃ f ∈ l,
          l.foldl
            (fun mx f =>
              if mx < f.character_size.height then f.character_size.height
              else mx) a = f.character_size.height := by
  induction l with
  | nil => intro a; exact Or.inl rfl
  | cons f fs ih =>
    intro a
    rcases ih (if a < f.character_size.height then f.character_size.height
      else a) with h | ⟨g, hg, hfold⟩
    · by_cases hc : a < f.character_size.height
      · refine Or.inr ⟨f, List.mem_cons_self f fs, ?_⟩
        simpa [List.foldl, hc] using h
      · refine Or.inl ?_
        simpa [List.foldl, hc] using h
    · exact Or.inr ⟨g, List.mem_cons_of_mem f hg, by simpa [List.foldl] using hfold⟩

lemma foldl_maxHeight_ge (l : List MultiMonoFont) :
    ∀ (a : Nat) (f : MultiMonoFont), f ∈ l →
      f.character_size.height ≤
        l.foldl
          (fun mx g =>
            if mx < g.character_size.height then g.character_size.height
            else mx) a := by
  induction l with
  | nil => intro a f hf; cases hf
  | cons g gs ih =>
    intro a f hf
    rcases List.mem_cons.mp hf with h | h
    · subst h
      refine Nat.le_trans ?_
        (foldl_maxHeight_le gs (if a < f.character_size.height
          then f.character_size.height else a))
      split <;> omega
    · exact ih _ f h

lemma foldl_minHeight_le (l : List MultiMonoFont) :
    ∀ a : Nat,
      l.foldl
          (fun mn f =>
            if f.character_size.height < mn then f.character_size.height
            else mn) a ≤ a := by
  induction l with
  | nil => intro a; exact Nat.le_refl a
  | cons f fs ih =>
    intro a
    refine Nat.le_trans (ih (if f.character_size.height < a
      then f.character_size.height else a)) ?_
    split <;> omega

lemma foldl_minHeight_mem (l : List MultiMonoFont) :
    ∀ a : Nat,
      l.foldl
          (fun mn f =>
            if f.character_size.height < mn then f.character_size.height
            else mn) a = a ∨
        ∃ f ∈ l,
          l.foldl
            (fun mn f =>
              if f.character_size.height < mn then f.character_size.height
              else mn) a = f.character_size.height := by
  induction l with
  | nil => intro a; exact Or.inl rfl
  | cons f fs ih =>
    intro a
    rcases ih (if f.character_size.height < a then f.character_size.height
      else a) with h | ⟨g, hg, hfold⟩
    · by_cases hc : f.character_size.height < a
      · refine Or.inr ⟨f, List.mem_cons_self f fs, ?_⟩
        simpa [List.foldl, hc] using h
      · refine Or.inl ?_
        simpa [List.foldl, hc] using h
    · exact Or.inr ⟨g, List.mem_cons_of_mem f hg, by simpa [List.foldl] using hfold⟩

lemma foldl_minHeight_ge (l : List MultiMonoFont) :
    ∀ (a : Nat) (f : MultiMonoFont), f ∈ l →
      l.foldl
          (fun mn g =>
            if g.character_size.height < mn then g.character_size.height
            else mn) a ≤ f.character_size.height := by
  induction l with
  | nil => intro a f hf; cases hf
  | cons g gs ih =>
    intro a f hf
    rcases List.mem_cons.mp hf with h | h
    · subst h
      refine Nat.le_trans (foldl_minHeight_le gs
        (if f.character_size.height < a then f.character_size.height
          else a)) ?_
      split <;> omega
    · exact ih _ f h

/-- Claim C5. For a nonempty font list, `Max` resolves to the greatest cell
height among the fonts and `Min` (whose fold starts at `ChSzTy::MAX`, so
the heights must fit `ChSzTy`, as `u8` values do) to the smallest;
`Specify(h)` resolves to `h` regardless of the fonts; the builder replaces
an empty font list by the zero-sized sentinel so aggregation never runs
over zero elements, stores the resolved height at construction, and
`line_height()` returns the stored field; heights {12, 32, 24} resolve to
32 under `Max`, 12 under `Min`, and 20 under `Specify(20)`. -/
theorem c5_line_height :
    (∀ fonts : List MultiMonoFont, fonts ≠ [] →
      (∃ f ∈ fonts,
        getLineHeight .max fonts = f.character_size.height) ∧
      (∀ f ∈ fonts,
        f.character_size.height ≤ getLineHeight .max fonts)) ∧
    (∀ fonts : List MultiMonoFont, fonts ≠ [] →
      (∀ f ∈ fonts, f.character_size.height ≤ chSzTyMax) →
      (∃ f ∈ fonts,
        getLineHeight .min fonts = f.character_size.height) ∧
      (∀ f ∈ fonts,
        getLineHeight .min fonts ≤ f.character_size.height)) ∧
    (∀ (fonts : List MultiMonoFont) (h : Nat),
      getLineHeight (.specify h) fonts = h) ∧
    (∀ font_list : List MultiMonoFont, effectiveFonts font_list ≠ []) ∧
    (∀ (C : Type) (b : MultiMonoTextStyleBuilder C)
        (font_list : List MultiMonoFont) (lh : MultiMonoLineHeight),
      (b.font font_list lh).style.fonts = effectiveFonts font_list ∧
      (b.font font_list lh).style.line_height =
        getLineHeight lh (effectiveFonts font_list)) ∧
    (∀ (C : Type) (s : MultiMonoTextStyle C), s.lineHeight = s.line_height) ∧
    (getLineHeight .max [fontH 12, fontH 32, fontH 24] = 32 ∧
      getLineHeight .min [fontH 12, fontH 32, fontH 24] = 12 ∧
      getLineHeight (.specify 20) [fontH 12, fontH 32, fontH 24] = 20) := by
  refine ⟨?_, ?_, ?_, ?_, ?_, ?_, by decide, by decide, rfl⟩
  · intro fonts hne
    constructor
    · rcases foldl_maxHeight_mem fonts 0 with h | h
      · match fonts, hne with
        | f :: fs, _ =>
          refine ⟨f, List.mem_cons_self f fs, ?_⟩
          have hge := foldl_maxHeight_ge (f :: fs) 0 f
            (List.mem_cons_self f fs)
          simp only [getLineHeight]
          omega
      · exact h
    · intro f hf
      exact foldl_maxHeight_ge fonts 0 f hf
  · intro fonts hne hbound
    constructor
    · rcases foldl_minHeight_mem fonts chSzTyMax with h | h
      · match fonts, hne with
        | f :: fs, _ =>
          refine ⟨f, List.mem_cons_self f fs, ?_⟩
          have hle := foldl_minHeight_ge (f :: fs) chSzTyMax f
            (List.mem_cons_self f fs)
          have hb := hbound f (List.mem_cons_self f fs)
          simp only [getLineHeight]
          omega
      · exact h
    · intro f hf
      exact foldl_minHeight_ge fonts chSzTyMax f hf
  · intro fonts h
    rfl
  · intro font_list
    unfold effectiveFonts
    split
    · simp
    · rename_i h
      intro hc
      subst hc
      simp at h
  · intro C b font_list lh
    exact ⟨rfl, rfl⟩
  · intro C s
    rfl

/-- Claim C5, witness: the scenario font list {12, 32, 24} is nonempty with
heights within `ChSzTy`, so `Max` resolves to a height that every font is
bounded by. -/
theorem c5_line_height_witness :
    (∃ f ∈ [fontH 12, fontH 32, fontH 24],
      getLineHeight .max [fontH 12, fontH 32, fontH 24] =
        f.character_size.height) ∧
    (∃ f ∈ [fontH 12, fontH 32, fontH 24],
      getLineHeight .min [fontH 12, fontH 32, fontH 24] =
        f.character_size.height) :=
  ⟨(c5_line_height.1 [fontH 12, fontH 32, fontH 24] (by decide)).1,
    (c5_line_height.2.1 [fontH 12, fontH 32, fontH 24] (by decide)
      (by decide)).1⟩

lemma charRange_pos_of_mem (s e x : Nat) (h : x ∈ charRange s e) : s ≤ x := by
  unfold charRange at h
  exact (List.mem_range'_1.mp (List.mem_of_mem_filter h)).1

lemma mappingChars_id_of_nul_not_mem :
    ∀ l : List Nat, 0 ∉ l → mappingChars l = l := by
  intro l
  induction l with
  | nil => intro _; rfl
  | cons c rest ih =>
    intro h
    have hc : c ≠ 0 := fun hc => h (hc ▸ List.mem_cons_self c rest)
    have hrest : 0 ∉ rest := fun hr => h (List.mem_cons_of_mem c hr)
    rw [mappingChars.eq_def]
    simp [hc, ih hrest]

/-- Claim C9, counterexample. The run consisting of the single character
NUL: its explicit single-character listing is the string `"\0"`, which the
encoding reparses as a truncated escape claiming nothing, while the
run-encoded range `"\0\0\0"` claims NUL — so `contains` disagrees at NUL. -/
theorem c9_counterexample :
    StrGlyphMapping.contains ⟨[0], 5⟩ 0 = false ∧
    StrGlyphMapping.contains ⟨[0, 0, 0], 5⟩ 0 = true ∧
    charRange 0 0 = [0] := by
  decide

/-- Claim C9, amended. For every finite run of consecutive characters whose
start is not NUL (so the escape marker cannot occur inside the run), a
mapping built from the explicit single-character listing of the run and a
mapping built from the equivalent run-encoded inclusive range, with the
same replacement index, agree on `index` and `contains` at every code
point. -/
theorem c9_amended (s e r : Nat) (hs : s ≠ 0) (hse : s ≤ e) (c : Nat) :
    StrGlyphMapping.index ⟨charRange s e, r⟩ c =
      StrGlyphMapping.index ⟨[0, s, e], r⟩ c ∧
    StrGlyphMapping.contains ⟨charRange s e, r⟩ c =
      StrGlyphMapping.contains ⟨[0, s, e], r⟩ c := by
  have hnul : 0 ∉ charRange s e := by
    intro h
    exact hs (Nat.le_zero.mp (charRange_pos_of_mem s e 0 h))
  have hexp : mappingChars (charRange s e) = charRange s e :=
    mappingChars_id_of_nul_not_mem (charRange s e) hnul
  have henc : mappingChars [0, s, e] = charRange s e := by
    rw [mappingChars.eq_def]
    simp [mappingChars]
  constructor
  · unfold StrGlyphMapping.index
    rw [hexp, henc]
  · unfold StrGlyphMapping.contains
    rw [hexp, henc]

/-- Claim C9, witness for the amended theorem: the run `a..=f` with
replacement index 0, compared at the claimed character `c` and at the
unclaimed character `z`. -/
theorem c9_amended_witness :
    (StrGlyphMapping.index ⟨charRange 97 102, 0⟩ 99 =
      StrGlyphMapping.index ⟨[0, 97, 102], 0⟩ 99 ∧
    StrGlyphMapping.contains ⟨charRange 97 102, 0⟩ 99 =
      StrGlyphMapping.contains ⟨[0, 97, 102], 0⟩ 99) ∧
    (StrGlyphMapping.index ⟨charRange 97 102, 0⟩ 122 =
      StrGlyphMapping.index ⟨[0, 97, 102], 0⟩ 122 ∧
    StrGlyphMapping.contains ⟨charRange 97 102, 0⟩ 122 =
      StrGlyphMapping.contains ⟨[0, 97, 102], 0⟩ 122) :=
  ⟨c9_amended 97 102 0 (by decide) (by decide) 99,
    c9_amended 97 102 0 (by decide) (by decide) 122⟩

lemma mappingChars_cons_ne (c : Nat) (rest : List Nat) (hc : c ≠ 0) :
    mappingChars (c :: rest) = c :: mappingChars rest := by
  rw [mappingChars.eq_def]
  simp [hc]

lemma mappingChars_cons_range (s e : Nat) (rest2 : List Nat) :
    mappingChars (0 :: s :: e :: rest2) =
      charRange s e ++ mappingChars rest2 := by
  rw [mappingChars.eq_def]
  rfl

lemma mappingChars_encode_append :
    ∀ segs : List MapSeg, (∀ seg ∈ segs, validSegB seg = true) →
      ∀ tail : List Nat,
        mappingChars (encodeSegs segs ++ tail) =
          (segs.map segChars).flatten ++ mappingChars tail := by
  intro segs
  induction segs with
  | nil => intro _ tail; simp [encodeSegs]
  | cons seg rest ih =>
    intro hvalid tail
    have hrest : ∀ s ∈ rest, validSegB s = true := fun s hs =>
      hvalid s (List.mem_cons_of_mem seg hs)
    cases seg with
    | single c =>
      have hc : c ≠ 0 := by
        have hv := hvalid (.single c) (List.mem_cons_self _ rest)
        simpa [validSegB] using hv
      show mappingChars (c :: (encodeSegs rest ++ tail)) =
        (List.map segChars (.single c :: rest)).flatten ++ mappingChars tail
      rw [mappingChars_cons_ne _ _ hc, ih hrest tail]
      simp [segChars]
    | range s e =>
      show mappingChars (0 :: s :: e :: (encodeSegs rest ++ tail)) =
        (List.map segChars (.range s e :: rest)).flatten ++ mappingChars tail
      rw [mappingChars_cons_range, ih hrest tail]
      simp [segChars, List.append_assoc]

lemma rangesAux_isSome_of_wf :
    ∀ data : List Nat, wfData data = true → ∀ i : Nat,
      (mappingRangesAux i data).isSome = true := by
  intro data
  induction data using wfData.induct with
  | case1 => intro _ i; rfl
  | case2 s e rest2 ih =>
    intro hwf i
    have hwf' : (decide (s ≤ e) && wfData rest2) = true := by
      simpa [wfData] using hwf
    have hse : s ≤ e := by
      have := (Bool.and_eq_true _ _).mp hwf'
      exact of_decide_eq_true this.1
    have hwf2 : wfData rest2 = true := ((Bool.and_eq_true _ _).mp hwf').2
    simp only [mappingRangesAux, if_pos rfl]
    rw [if_neg (Nat.not_lt.mpr hse)]
    cases h : mappingRangesAux (i + (e - s + 1)) rest2 with
    | none =>
      have hih := ih hwf2 (i + (e - s + 1))
      rw [h] at hih
      simp at hih
    | some tail => simp
  | case3 rest hshape =>
    intro _ i
    cases rest with
    | nil => rfl
    | cons s rest' =>
      cases rest' with
      | nil => rfl
      | cons e rest2 => exact (hshape s e rest2 rfl).elim
  | case4 c rest hc ih =>
    intro hwf i
    have hwf' : wfData rest = true := by
      rw [wfData.eq_def] at hwf
      simpa [hc] using hwf
    rw [mappingRangesAux.eq_def]
    dsimp only
    rw [if_neg hc]
    cases h : mappingRangesAux (i + 1) rest with
    | none =>
      have hih := ih hwf' (i + 1)
      rw [h] at hih
      simp at hih
    | some tail => simp

/-- Claim C10. The mapping operations are total on truncated data: when
every range of a data string is well-formed (start at most end), `ranges()`
never hits the underflowing index subtraction (its debug-build panic,
modelled as `none`); appending a truncated escape — a lone marker or a
marker with a single following character — to any well-encoded segment
sequence leaves the `chars()` enumeration, `index` and `contains`
unchanged, so the truncated segment claims no characters; and for every
character no segment claims, `index` falls back to the replacement index.
`chars()`, `contains` and `index` themselves have no panicking operation:
every partial step of the source (`chars.next()?`) ends the enumeration
cleanly, which the model reflects by being structurally total. -/
theorem c10_truncated_total :
    (∀ data : List Nat, wfData data = true → ∀ i : Nat,
      (mappingRangesAux i data).isSome = true) ∧
    (∀ (segs : List MapSeg) (t : List Nat) (r : Nat),
      (∀ seg ∈ segs, validSegB seg = true) →
      (t = [0] ∨ ∃ x, t = [0, x]) →
      mappingChars (encodeSegs segs ++ t) = mappingChars (encodeSegs segs) ∧
      (∀ c, StrGlyphMapping.index ⟨encodeSegs segs ++ t, r⟩ c =
        StrGlyphMapping.index ⟨encodeSegs segs, r⟩ c) ∧
      (∀ c, StrGlyphMapping.contains ⟨encodeSegs segs ++ t, r⟩ c =
        StrGlyphMapping.contains ⟨encodeSegs segs, r⟩ c)) ∧
    (∀ (m : StrGlyphMapping) (c : Nat), m.contains c = false →
      m.index c = m.replacement_index) := by
  refine ⟨rangesAux_isSome_of_wf, ?_, ?_⟩
  · intro segs t r hvalid ht
    have htr : mappingChars t = [] := by
      rcases ht with h | ⟨x, h⟩ <;> subst h <;> rfl
    have h0 : mappingChars (encodeSegs segs) = (segs.map segChars).flatten := by
      have h1 := mappingChars_encode_append segs hvalid []
      simpa [mappingChars] using h1
    have hchars : mappingChars (encodeSegs segs ++ t) =
        mappingChars (encodeSegs segs) := by
      rw [mappingChars_encode_append segs hvalid t, htr, List.append_nil, h0]
    refine ⟨hchars, ?_, ?_⟩
    · intro c
      unfold StrGlyphMapping.index
      rw [hchars]
    · intro c
      unfold StrGlyphMapping.contains
      rw [hchars]
  · intro m c hcon
    apply index_of_not_mem
    intro hmem
    rw [(contains_iff_mem m c).mpr hmem] at hcon
    simp at hcon

/-- Claim C10, witness: the scenario data is well-formed so `ranges()`
yields a value; one range segment followed by a lone truncated escape
marker enumerates the same characters as without it; an unclaimed
character falls back to the replacement index. -/
theorem c10_truncated_total_witness :
    (mappingRangesAux 0 scenarioData).isSome = true ∧
    mappingChars (encodeSegs [MapSeg.range 97 102] ++ [0]) =
      mappingChars (encodeSegs [MapSeg.range 97 102]) ∧
    StrGlyphMapping.index ⟨scenarioData, 33⟩ 102 = 5 ∧
    StrGlyphMapping.index ⟨[0, 97], 33⟩ 122 = 33 :=
  ⟨c10_truncated_total.1 scenarioData (by decide) 0,
    (c10_truncated_total.2.1 [MapSeg.range 97 102] [0] 7 (by decide)
      (Or.inl rfl)).1,
    by decide,
    c10_truncated_total.2.2 ⟨[0, 97], 33⟩ 122 (by decide)⟩
